import Mathlib

/-!
# Verification of the `rs-cli` JSON lexer and recursive-descent parser

Shallow embedding of `src/json-parser/src/main.rs`.

* Characters are Lean `Char` (the Rust code works on `Vec<char>`), the
  input is a `List Char` together with an explicit cursor index.
* Rust `f64` literals are abstracted to exact rationals `ℚ`: the lexer's
  numeric grammar has no exponents, so every accepted literal denotes an
  exact decimal fraction; IEEE rounding is irrelevant to the properties
  proved here (they only involve the values 0, 1 and 2, which are exact).
* The mutually recursive parser methods `parse` / `parse_object` /
  `parse_array` (with their two inner `loop`s) are embedded as a single
  step function `Parser.run` over an explicit call descriptor `PCall`,
  indexed by fuel to make the recursion structural.  A proof below shows
  that fuel `4 * tokens.length + 10` always suffices, and the fuel-free
  wrappers `Parser.parse`, `Parser.parse_object`, `Parser.parse_array`,
  `Parser.object_loop`, `Parser.array_loop` are defined from it by
  `Option.get`.  All statements are about those wrappers.
-/

/-- Rust's `char::is_whitespace`: the Unicode `White_Space` property,
listed by code point. -/
def rust_is_whitespace (c : Char) : Bool :=
  let n := c.toNat
  (0x09 ≤ n && n ≤ 0x0D) || n = 0x20 || n = 0x85 || n = 0xA0 || n = 0x1680 ||
  (0x2000 ≤ n && n ≤ 0x200A) || n = 0x2028 || n = 0x2029 || n = 0x202F ||
  n = 0x205F || n = 0x3000

/-- Decimal value of a digit run, most significant first (the usual
left fold used by string-to-number conversion). -/
def digits_to_nat (ds : List Char) : Nat :=
  ds.foldl (fun a c => a * 10 + (c.toNat - 48)) 0

/-- Modelled from the Rust standard library: the unsigned part of the
grammar accepted by `str::parse::<f64>()` (`FromStr for f64`), namely
`Digits '.'? Digits? | '.' Digits`, restricted to the characters the
lexer can ever accumulate (digits and `'.'`; the exponent / `inf` /
`nan` forms of the full grammar are unreachable because the lexer only
accumulates digits and dots after the first character).  The value is
the exact rational denoted by the literal. -/
def parse_f64_unsigned (s : List Char) : Option ℚ :=
  let intPart := s.takeWhile Char.isDigit
  let rest := s.drop intPart.length
  match rest with
  | [] => if intPart.isEmpty then none else some (digits_to_nat intPart)
  | '.' :: frac =>
      if frac.all Char.isDigit && (!intPart.isEmpty || !frac.isEmpty) then
        some ((digits_to_nat intPart : ℚ) + (digits_to_nat frac : ℚ) / (10 ^ frac.length))
      else none
  | _ => none

/-- Modelled from the Rust standard library: `str::parse::<f64>()` with an
optional leading sign, value abstracted to the exact rational. -/
def parse_f64 (s : List Char) : Option ℚ :=
  match s with
  | '-' :: rest => (parse_f64_unsigned rest).map (fun q => -q)
  | '+' :: rest => parse_f64_unsigned rest
  | rest => parse_f64_unsigned rest

/-- The `Token` enum of the source (`main.rs` lines 8-23). -/
inductive Token where
  | LeftBrace
  | RightBrace
  | String (s : List Char)
  | Number (n : ℚ)
  | True
  | False
  | Null
  | LeftBracket
  | RightBracket
  | Colon
  | Comma
  | Whitespace
  | Eof
  deriving DecidableEq

/-- `Lexer::skio_whitespace` [sic]: number of leading whitespace
characters of the remaining input (the while loop advances the cursor
past exactly these). -/
def Lexer.skip_ws_count : List Char → Nat
  | [] => 0
  | c :: rest => if rust_is_whitespace c then Lexer.skip_ws_count rest + 1 else 0

/-- Cursor position after `Lexer::skio_whitespace` (`main.rs` 40-44). -/
def Lexer.skio_whitespace (input : List Char) (pos : Nat) : Nat :=
  pos + Lexer.skip_ws_count (input.drop pos)

/-- The character-collecting while loop of `Lexer::read_string`
(`main.rs` 74-77): push characters while the cursor is in bounds and the
current character is not `"`. -/
def Lexer.take_string_chars : List Char → List Char
  | [] => []
  | c :: rest => if c = '"' then [] else c :: Lexer.take_string_chars rest

/-- `Lexer::read_string` (`main.rs` 72-83): collect characters up to the
next `"` or end of input, then skip the closing `"` if present.  Returns
the token and the new cursor position. -/
def Lexer.read_string (input : List Char) (pos : Nat) : Token × Nat :=
  let result := Lexer.take_string_chars (input.drop pos)
  let p := pos + result.length
  (Token.String result,
    if p < input.length && (input.getD p ' ' == '"') then p + 1 else p)

/-- `Lexer::read_true` (`main.rs` 85-94).  `pos` is the cursor position
after the initial `t` was consumed; the slice check re-reads the four
characters starting one before the cursor. -/
def Lexer.read_true (input : List Char) (pos : Nat) : Token × Nat :=
  if pos + 3 ≤ input.length && ((input.drop (pos - 1)).take 4 == ['t', 'r', 'u', 'e']) then
    (Token.True, pos + 3)
  else
    (Token.Whitespace, pos)

/-- `Lexer::read_false` (`main.rs` 96-105). -/
def Lexer.read_false (input : List Char) (pos : Nat) : Token × Nat :=
  if pos + 4 ≤ input.length && ((input.drop (pos - 1)).take 5 == ['f', 'a', 'l', 's', 'e']) then
    (Token.False, pos + 4)
  else
    (Token.Whitespace, pos)

/-- `Lexer::read_null` (`main.rs` 107-116). -/
def Lexer.read_null (input : List Char) (pos : Nat) : Token × Nat :=
  if pos + 3 ≤ input.length && ((input.drop (pos - 1)).take 4 == ['n', 'u', 'l', 'l']) then
    (Token.Null, pos + 3)
  else
    (Token.Whitespace, pos)

/-- The digit/dot-collecting while loop of `Lexer::read_number`
(`main.rs` 120-125). -/
def Lexer.take_number_chars : List Char → List Char
  | [] => []
  | c :: rest =>
      if c.isDigit || c == '.' then c :: Lexer.take_number_chars rest else []

/-- `Lexer::read_number` (`main.rs` 118-127): accumulate the first
character and the following digit/dot run, convert with
`parse().unwrap_or(0.0)`. -/
def Lexer.read_number (input : List Char) (pos : Nat) (first : Char) : Token × Nat :=
  let ds := Lexer.take_number_chars (input.drop pos)
  (Token.Number ((parse_f64 (first :: ds)).getD 0), pos + ds.length)

/-- `Lexer::next_token` (`main.rs` 46-70): skip whitespace, return `Eof`
at end of input, otherwise consume one character and classify. -/
def Lexer.next_token (input : List Char) (pos : Nat) : Token × Nat :=
  let p := Lexer.skio_whitespace input pos
  if p < input.length then
    let ch := input.getD p ' '
    if ch = '{' then (Token.LeftBrace, p + 1)
    else if ch = '}' then (Token.RightBrace, p + 1)
    else if ch = '[' then (Token.LeftBracket, p + 1)
    else if ch = ']' then (Token.RightBracket, p + 1)
    else if ch = ':' then (Token.Colon, p + 1)
    else if ch = ',' then (Token.Comma, p + 1)
    else if ch = '"' then Lexer.read_string input (p + 1)
    else if ch = 't' then Lexer.read_true input (p + 1)
    else if ch = 'f' then Lexer.read_false input (p + 1)
    else if ch = 'n' then Lexer.read_null input (p + 1)
    else if ch.isDigit || ch = '-' then Lexer.read_number input (p + 1) ch
    else (Token.Whitespace, p + 1)
  else (Token.Eof, p)

/-- The `JsonValue` enum of the source (`main.rs` 130-138).  Objects are
an ordered list of key/value pairs (`Vec<(String, JsonValue)>`). -/
inductive JsonValue where
  | Object (pairs : List (List Char × JsonValue))
  | Array (elems : List JsonValue)
  | String (s : List Char)
  | Number (n : ℚ)
  | Bool (b : Bool)
  | Null

/-- Call descriptors for the mutually recursive parser methods: one
constructor per method body, plus one per inner `loop` (a `loop` is the
tail-recursive part of its method, carrying the accumulator). -/
inductive PCall where
  | parse (pos : Nat)
  | parse_object (pos : Nat)
  | parse_array (pos : Nat)
  | object_loop (pos : Nat) (pairs : List (List Char × JsonValue))
  | array_loop (pos : Nat) (elems : List JsonValue)

/-- The read position a call starts from. -/
def PCall.posOf : PCall → Nat
  | .parse pos => pos
  | .parse_object pos => pos
  | .parse_array pos => pos
  | .object_loop pos _ => pos
  | .array_loop pos _ => pos

/-- One fuel-indexed step interpreter for `Parser::parse` (`main.rs`
154-186), `Parser::parse_object` (188-240) and `Parser::parse_array`
(242-276), with the two `loop`s as separate call kinds.  `none` means
the fuel ran out; `Parser.run_total` below shows this never happens for
fuel `4 * tokens.length + 10`.  Every result carries the new read
position (the Rust methods mutate `self.pos`). -/
def Parser.run (tokens : List Token) : Nat → PCall → Option (Except String JsonValue × Nat)
  | 0, _ => none
  | fuel + 1, PCall.parse pos =>
      if pos < tokens.length then
        match tokens.getD pos Token.Eof with
        | Token.LeftBrace => Parser.run tokens fuel (PCall.parse_object pos)
        | Token.LeftBracket => Parser.run tokens fuel (PCall.parse_array pos)
        | Token.String s => some (Except.ok (JsonValue.String s), pos + 1)
        | Token.Number n => some (Except.ok (JsonValue.Number n), pos + 1)
        | Token.True => some (Except.ok (JsonValue.Bool true), pos + 1)
        | Token.False => some (Except.ok (JsonValue.Bool false), pos + 1)
        | Token.Null => some (Except.ok JsonValue.Null, pos + 1)
        | _ => some (Except.error "Invalid JSON structure", pos)
      else some (Except.error "Unexpected end of input", pos)
  | fuel + 1, PCall.parse_object pos =>
      -- `self.pos += 1` skips the `{`, then the empty-object short-circuit.
      if pos + 1 < tokens.length && (tokens.getD (pos + 1) Token.Eof == Token.RightBrace) then
        some (Except.ok (JsonValue.Object []), pos + 2)
      else Parser.run tokens fuel (PCall.object_loop (pos + 1) [])
  | fuel + 1, PCall.parse_array pos =>
      if pos + 1 < tokens.length && (tokens.getD (pos + 1) Token.Eof == Token.RightBracket) then
        some (Except.ok (JsonValue.Array []), pos + 2)
      else Parser.run tokens fuel (PCall.array_loop (pos + 1) [])
  | fuel + 1, PCall.object_loop pos pairs =>
      if pos < tokens.length then
        match tokens.getD pos Token.Eof with
        | Token.String s =>
            -- key consumed (`self.pos += 1`), now the colon check
            if pos + 1 < tokens.length && (tokens.getD (pos + 1) Token.Eof == Token.Colon) then
              match Parser.run tokens fuel (PCall.parse (pos + 2)) with
              | none => none
              | some (Except.error e, r) => some (Except.error e, r)
              | some (Except.ok v, r) =>
                  if r < tokens.length then
                    match tokens.getD r Token.Eof with
                    | Token.RightBrace =>
                        some (Except.ok (JsonValue.Object (pairs ++ [(s, v)])), r + 1)
                    | Token.Comma =>
                        Parser.run tokens fuel (PCall.object_loop (r + 1) (pairs ++ [(s, v)]))
                    | _ => some (Except.error "Expected commna or closing brace", r)
                  else some (Except.error "Unclosed object", r)
            else some (Except.error "Expected colon after key", pos + 1)
        | _ => some (Except.error "Expected string key", pos)
      else some (Except.error "Unclosed object", pos)
  | fuel + 1, PCall.array_loop pos elems =>
      if pos < tokens.length then
        match Parser.run tokens fuel (PCall.parse pos) with
        | none => none
        | some (Except.error e, r) => some (Except.error e, r)
        | some (Except.ok v, r) =>
            if r < tokens.length then
              match tokens.getD r Token.Eof with
              | Token.RightBracket =>
                  some (Except.ok (JsonValue.Array (elems ++ [v])), r + 1)
              | Token.Comma =>
                  Parser.run tokens fuel (PCall.array_loop (r + 1) (elems ++ [v]))
              | _ => some (Except.error "Expected comma or closing bracket", r)
            else some (Except.error "Unclosed array", r)
      else some (Except.error "Unclosed array", pos)

/-- The token-collecting loop of `main` (`main.rs` 296-304): call
`next_token` until `Eof`, dropping `Whitespace` tokens.  Fuel-indexed;
`input.length + 1` steps always suffice (each non-`Eof` token consumes
at least one character). -/
def tokenize_loop (input : List Char) : Nat → Nat → List Token
  | 0, _ => []
  | fuel + 1, pos =>
      let (t, p) := Lexer.next_token input pos
      if t = Token.Eof then []
      else if t = Token.Whitespace then tokenize_loop input fuel p
      else t :: tokenize_loop input fuel p

/-- The token stream `main` hands to the `Parser`. -/
def tokenize (input : List Char) : List Token :=
  tokenize_loop input (input.length + 1) 0

/-! ## Lexer lemmas -/

/-- `List.getD` commutes with `List.drop`. -/
theorem list_getD_drop (l : List α) (n k : Nat) (d : α) :
    (l.drop n).getD k d = l.getD (n + k) d := by
  induction l generalizing n k with
  | nil => simp [List.getD]
  | cons a t ih =>
      cases n with
      | zero => simp
      | succ m =>
          simp only [List.drop_succ_cons]
          rw [ih m k]
          have hidx : m + 1 + k = (m + k) + 1 := by omega
          rw [hidx, List.getD_cons_succ]

/-- The string loop is `takeWhile (· != '"')`, and when it stops before
the end of the list it stops on a `"`. -/
theorem take_string_chars_spec (l : List Char) :
    Lexer.take_string_chars l = l.takeWhile (fun c => c != '"') ∧
      ((l.takeWhile (fun c => c != '"')).length < l.length →
        l.getD (l.takeWhile (fun c => c != '"')).length ' ' = '"') := by
  induction l with
  | nil => simp [Lexer.take_string_chars]
  | cons c rest ih =>
      by_cases hc : c = '"'
      · subst hc
        simp [Lexer.take_string_chars, List.takeWhile, List.getD]
      · have hb : (c != '"') = true := by simp [hc]
        constructor
        · simp only [Lexer.take_string_chars, if_neg hc, List.takeWhile, hb]
          rw [ih.1]
        · simp only [List.takeWhile, hb]
          intro hlen
          simp only [List.length_cons, Nat.add_lt_add_iff_right] at hlen
          simpa [List.getD] using ih.2 hlen

/-- The numeric loop is `takeWhile (fun c => c.isDigit || c == '.')`. -/
theorem take_number_chars_eq (l : List Char) :
    Lexer.take_number_chars l = l.takeWhile (fun c => c.isDigit || c == '.') := by
  induction l with
  | nil => rfl
  | cons c rest ih =>
      simp only [Lexer.take_number_chars, List.takeWhile]
      cases hb : (c.isDigit || c == '.') <;> simp [hb, ih]

/-- Characterisation of `Lexer::read_string`: the token text is exactly
the run of characters before the next `"` (or end of input), and the
cursor also skips a closing `"` when one was found. -/
theorem read_string_spec (input : List Char) (pos : Nat) :
    Lexer.read_string input pos =
      (Token.String ((input.drop pos).takeWhile (fun c => c != '"')),
        if pos + ((input.drop pos).takeWhile (fun c => c != '"')).length < input.length then
          pos + ((input.drop pos).takeWhile (fun c => c != '"')).length + 1
        else pos + ((input.drop pos).takeWhile (fun c => c != '"')).length) := by
  have hspec := take_string_chars_spec (input.drop pos)
  set t := (input.drop pos).takeWhile (fun c => c != '"') with ht
  unfold Lexer.read_string
  rw [hspec.1]
  dsimp only
  by_cases hlt : pos + t.length < input.length
  · have hdl : (input.drop pos).length = input.length - pos := List.length_drop pos input
    have hlt2 : t.length < (input.drop pos).length := by omega
    have hquote := hspec.2 hlt2
    rw [list_getD_drop] at hquote
    rw [hquote]
    simp [hlt]
  · simp [hlt]

/-- Characterisation of `Lexer::read_number`: it accumulates the first
character plus the contiguous digit/dot run, converts with
`unwrap_or(0.0)`, and advances the cursor past the run. -/
theorem read_number_spec (input : List Char) (pos : Nat) (first : Char) :
    Lexer.read_number input pos first =
      (Token.Number ((parse_f64
          (first :: (input.drop pos).takeWhile (fun c => c.isDigit || c == '.'))).getD 0),
        pos + ((input.drop pos).takeWhile (fun c => c.isDigit || c == '.')).length) := by
  unfold Lexer.read_number
  rw [take_number_chars_eq]

/-- The whitespace-skipping loop never runs past the end of the input. -/
theorem skip_ws_count_le (l : List Char) : Lexer.skip_ws_count l ≤ l.length := by
  induction l with
  | nil => simp [Lexer.skip_ws_count]
  | cons c rest ih =>
      simp only [Lexer.skip_ws_count, List.length_cons]
      split <;> omega

/-- The whitespace skip never moves the cursor left. -/
theorem skio_whitespace_ge (input : List Char) (pos : Nat) :
    pos ≤ Lexer.skio_whitespace input pos :=
  Nat.le_add_right _ _

/-- The whitespace skip stays within the input when it starts there. -/
theorem skio_whitespace_le (input : List Char) (pos : Nat) (h : pos ≤ input.length) :
    Lexer.skio_whitespace input pos ≤ input.length := by
  unfold Lexer.skio_whitespace
  have h1 := skip_ws_count_le (input.drop pos)
  have h2 : (input.drop pos).length = input.length - pos := List.length_drop pos input
  omega

/-- `read_string` never moves the cursor left. -/
theorem read_string_ge (input : List Char) (pos : Nat) :
    pos ≤ (Lexer.read_string input pos).2 := by
  rw [read_string_spec]
  dsimp only
  split <;> omega

/-- `read_true` never moves the cursor left. -/
theorem read_true_ge (input : List Char) (pos : Nat) :
    pos ≤ (Lexer.read_true input pos).2 := by
  unfold Lexer.read_true
  split <;> simp

/-- `read_false` never moves the cursor left. -/
theorem read_false_ge (input : List Char) (pos : Nat) :
    pos ≤ (Lexer.read_false input pos).2 := by
  unfold Lexer.read_false
  split <;> simp

/-- `read_null` never moves the cursor left. -/
theorem read_null_ge (input : List Char) (pos : Nat) :
    pos ≤ (Lexer.read_null input pos).2 := by
  unfold Lexer.read_null
  split <;> simp

/-- `read_number` never moves the cursor left. -/
theorem read_number_ge (input : List Char) (pos : Nat) (first : Char) :
    pos ≤ (Lexer.read_number input pos first).2 := by
  rw [read_number_spec]
  exact Nat.le_add_right _ _

/-- Lower bound on the cursor component of a two-way branch. -/
theorem snd_ite_le {c : Prop} [Decidable c] {a b : Token × Nat} (n : Nat)
    (ha : n ≤ a.2) (hb : n ≤ b.2) : n ≤ (if c then a else b).2 := by
  by_cases h : c
  · rw [if_pos h]; exact ha
  · rw [if_neg h]; exact hb

/-- `next_token` never moves the cursor left (Lexer cursor monotonicity). -/
theorem next_token_ge (input : List Char) (pos : Nat) :
    pos ≤ (Lexer.next_token input pos).2 := by
  have hskip := skio_whitespace_ge input pos
  have hp1 : pos ≤ Lexer.skio_whitespace input pos + 1 := le_trans hskip (Nat.le_succ _)
  have hs := le_trans hp1 (read_string_ge input (Lexer.skio_whitespace input pos + 1))
  have ht := le_trans hp1 (read_true_ge input (Lexer.skio_whitespace input pos + 1))
  have hf := le_trans hp1 (read_false_ge input (Lexer.skio_whitespace input pos + 1))
  have hn := le_trans hp1 (read_null_ge input (Lexer.skio_whitespace input pos + 1))
  have hnum := le_trans hp1 (read_number_ge input (Lexer.skio_whitespace input pos + 1)
    (input.getD (Lexer.skio_whitespace input pos) ' '))
  simp only [Lexer.next_token]
  by_cases h : Lexer.skio_whitespace input pos < input.length
  · rw [if_pos h]
    exact snd_ite_le _ hp1 (snd_ite_le _ hp1 (snd_ite_le _ hp1 (snd_ite_le _ hp1
      (snd_ite_le _ hp1 (snd_ite_le _ hp1 (snd_ite_le _ hs (snd_ite_le _ ht
      (snd_ite_le _ hf (snd_ite_le _ hn (snd_ite_le _ hnum hp1))))))))))
  · rw [if_neg h]
    exact hskip

/-- When the whitespace skip stops inside the input, the classified
token consumes at least one character. -/
theorem next_token_snd_lt (input : List Char) (pos : Nat)
    (h : Lexer.skio_whitespace input pos < input.length) :
    Lexer.skio_whitespace input pos + 1 ≤ (Lexer.next_token input pos).2 := by
  have base := le_refl (Lexer.skio_whitespace input pos + 1)
  have hs := read_string_ge input (Lexer.skio_whitespace input pos + 1)
  have ht := read_true_ge input (Lexer.skio_whitespace input pos + 1)
  have hf := read_false_ge input (Lexer.skio_whitespace input pos + 1)
  have hn := read_null_ge input (Lexer.skio_whitespace input pos + 1)
  have hnum := read_number_ge input (Lexer.skio_whitespace input pos + 1)
    (input.getD (Lexer.skio_whitespace input pos) ' ')
  simp only [Lexer.next_token]
  rw [if_pos h]
  exact snd_ite_le _ base (snd_ite_le _ base (snd_ite_le _ base (snd_ite_le _ base
    (snd_ite_le _ base (snd_ite_le _ base (snd_ite_le _ hs (snd_ite_le _ ht
    (snd_ite_le _ hf (snd_ite_le _ hn (snd_ite_le _ hnum base))))))))))

/-- When the whitespace skip reaches the end of the input, `next_token`
returns `Eof` without moving past the skip position. -/
theorem next_token_eof (input : List Char) (pos : Nat)
    (h : ¬Lexer.skio_whitespace input pos < input.length) :
    Lexer.next_token input pos = (Token.Eof, Lexer.skio_whitespace input pos) := by
  simp only [Lexer.next_token]
  rw [if_neg h]

/-- A non-`Eof` token starts inside the input and strictly advances the
lexer cursor. -/
theorem next_token_progress (input : List Char) (pos : Nat)
    (h : (Lexer.next_token input pos).1 ≠ Token.Eof) :
    pos < input.length ∧ pos < (Lexer.next_token input pos).2 := by
  by_cases hlt : Lexer.skio_whitespace input pos < input.length
  · have h2 := next_token_snd_lt input pos hlt
    have h3 := skio_whitespace_ge input pos
    exact ⟨by omega, by omega⟩
  · rw [next_token_eof input pos hlt] at h
    exact absurd rfl h

/-- The token-collecting loop emits at most one token per remaining
input character. -/
theorem tokenize_loop_length (input : List Char) :
    ∀ fuel pos, (tokenize_loop input fuel pos).length ≤ input.length - pos := by
  intro fuel
  induction fuel with
  | zero => intro pos; simp [tokenize_loop]
  | succ n ih =>
      intro pos
      simp only [tokenize_loop]
      split
      · simp
      · rename_i hne
        have hprog := next_token_progress input pos hne
        have hrec := ih (Lexer.next_token input pos).2
        split
        · omega
        · simp only [List.length_cons]
          omega

/-- Any two sufficient fuel values make the token-collecting loop agree:
the loop terminates within `input.length - pos + 1` iterations. -/
theorem tokenize_loop_stable (input : List Char) :
    ∀ f₁ f₂ pos, input.length - pos < f₁ → input.length - pos < f₂ →
      tokenize_loop input f₁ pos = tokenize_loop input f₂ pos := by
  intro f₁
  induction f₁ with
  | zero => intro f₂ pos h1; omega
  | succ n ih =>
      intro f₂ pos h1 h2
      cases f₂ with
      | zero => omega
      | succ m =>
          simp only [tokenize_loop]
          split
          · rfl
          · rename_i hne
            have hprog := next_token_progress input pos hne
            have hrec : tokenize_loop input n (Lexer.next_token input pos).2 =
                tokenize_loop input m (Lexer.next_token input pos).2 :=
              ih m _ (by omega) (by omega)
            split
            · exact hrec
            · rw [hrec]

/-- `Whitespace` tokens never survive the collection loop. -/
theorem tokenize_loop_no_whitespace (input : List Char) :
    ∀ fuel pos, Token.Whitespace ∉ tokenize_loop input fuel pos := by
  intro fuel
  induction fuel with
  | zero => intro pos; simp [tokenize_loop]
  | succ n ih =>
      intro pos
      simp only [tokenize_loop]
      split
      · simp
      · split
        · exact ih _
        · rename_i hne hws
          intro hmem
          rcases List.mem_cons.mp hmem with h | h
          · exact hws h.symm
          · exact ih _ h

/-! ## Parser machinery: monotonicity, fuel stability, totality -/

/-- Fuel weight of a call kind (used for the sufficient-fuel bound). -/
def PCall.rank : PCall → Nat
  | .parse _ => 8
  | .parse_object _ => 7
  | .parse_array _ => 7
  | .object_loop _ _ => 9
  | .array_loop _ _ => 9

/-- Fuel that always suffices to run a call to completion (proved in
`Parser.run_total`). -/
def Parser.need (tokens : List Token) (c : PCall) : Nat :=
  4 * (tokens.length - c.posOf) + c.rank

/-- Parser cursor monotonicity: a completed call never moves the read
position left, and moves it strictly right whenever it succeeds. -/
theorem Parser.run_mono (tokens : List Token) :
    ∀ fuel c res p', Parser.run tokens fuel c = some (res, p') →
      c.posOf ≤ p' ∧ ∀ v, res = Except.ok v → c.posOf < p' := by
  intro fuel
  induction fuel with
  | zero => intro c res p' h; simp [Parser.run] at h
  | succ n ih =>
      intro c res p' h
      cases c with
      | parse pos =>
          simp only [PCall.posOf]
          simp only [Parser.run] at h
          split at h
          · split at h
            · have hrec := ih (PCall.parse_object pos) res p' h
              exact ⟨hrec.1, hrec.2⟩
            · have hrec := ih (PCall.parse_array pos) res p' h
              exact ⟨hrec.1, hrec.2⟩
            all_goals
              simp only [Option.some.injEq, Prod.mk.injEq] at h
              obtain ⟨h1, h2⟩ := h
              subst h2
              first
                | exact ⟨Nat.le_succ pos, fun v hv => Nat.lt_succ_self pos⟩
                | exact ⟨le_refl pos, fun v hv => by rw [← h1] at hv; cases hv⟩
          · simp only [Option.some.injEq, Prod.mk.injEq] at h
            obtain ⟨h1, h2⟩ := h
            subst h2
            exact ⟨le_refl pos, fun v hv => by rw [← h1] at hv; cases hv⟩
      | parse_object pos =>
          simp only [PCall.posOf]
          simp only [Parser.run] at h
          split at h
          · simp only [Option.some.injEq, Prod.mk.injEq] at h
            obtain ⟨h1, h2⟩ := h
            subst h2
            exact ⟨by omega, fun v hv => by omega⟩
          · have hrec := ih _ _ _ h
            have h1 : pos + 1 ≤ p' := hrec.1
            refine ⟨by omega, fun v hv => ?_⟩
            omega
      | parse_array pos =>
          simp only [PCall.posOf]
          simp only [Parser.run] at h
          split at h
          · simp only [Option.some.injEq, Prod.mk.injEq] at h
            obtain ⟨h1, h2⟩ := h
            subst h2
            exact ⟨by omega, fun v hv => by omega⟩
          · have hrec := ih _ _ _ h
            have h1 : pos + 1 ≤ p' := hrec.1
            refine ⟨by omega, fun v hv => ?_⟩
            omega
      | object_loop pos pairs =>
          simp only [PCall.posOf]
          simp only [Parser.run] at h
          split at h
          · split at h
            · -- key is a string
              split at h
              · -- colon present: match on the recursive value parse
                split at h
                · exact absurd h (by simp)
                · rename_i e r heq
                  have hv := ih _ _ _ heq
                  have h1 : pos + 2 ≤ r := hv.1
                  simp only [Option.some.injEq, Prod.mk.injEq] at h
                  obtain ⟨hres, hp⟩ := h
                  subst hp
                  exact ⟨by omega, fun v hveq => by rw [← hres] at hveq; cases hveq⟩
                · rename_i v r heq
                  have hv := ih _ _ _ heq
                  have h1 : pos + 2 ≤ r := hv.1
                  split at h
                  · split at h
                    · simp only [Option.some.injEq, Prod.mk.injEq] at h
                      obtain ⟨hres, hp⟩ := h
                      subst hp
                      exact ⟨by omega, fun w hw => by omega⟩
                    · have hrec := ih _ _ _ h
                      have h2 : r + 1 ≤ p' := hrec.1
                      refine ⟨by omega, fun w hw => ?_⟩
                      omega
                    · simp only [Option.some.injEq, Prod.mk.injEq] at h
                      obtain ⟨hres, hp⟩ := h
                      subst hp
                      exact ⟨by omega, fun w hw => by rw [← hres] at hw; cases hw⟩
                  · simp only [Option.some.injEq, Prod.mk.injEq] at h
                    obtain ⟨hres, hp⟩ := h
                    subst hp
                    exact ⟨by omega, fun w hw => by rw [← hres] at hw; cases hw⟩
              · simp only [Option.some.injEq, Prod.mk.injEq] at h
                obtain ⟨hres, hp⟩ := h
                subst hp
                exact ⟨by omega, fun w hw => by rw [← hres] at hw; cases hw⟩
            · simp only [Option.some.injEq, Prod.mk.injEq] at h
              obtain ⟨hres, hp⟩ := h
              subst hp
              exact ⟨le_refl pos, fun w hw => by rw [← hres] at hw; cases hw⟩
          · simp only [Option.some.injEq, Prod.mk.injEq] at h
            obtain ⟨hres, hp⟩ := h
            subst hp
            exact ⟨le_refl pos, fun w hw => by rw [← hres] at hw; cases hw⟩
      | array_loop pos elems =>
          simp only [PCall.posOf]
          simp only [Parser.run] at h
          split at h
          · split at h
            · exact absurd h (by simp)
            · rename_i e r heq
              have hv := ih _ _ _ heq
              have h1 : pos ≤ r := hv.1
              simp only [Option.some.injEq, Prod.mk.injEq] at h
              obtain ⟨hres, hp⟩ := h
              subst hp
              exact ⟨by omega, fun w hw => by rw [← hres] at hw; cases hw⟩
            · rename_i v r heq
              have hv := ih _ _ _ heq
              have h1 : pos ≤ r := hv.1
              have h1lt : pos < r := hv.2 v rfl
              split at h
              · split at h
                · simp only [Option.some.injEq, Prod.mk.injEq] at h
                  obtain ⟨hres, hp⟩ := h
                  subst hp
                  exact ⟨by omega, fun w hw => by omega⟩
                · have hrec := ih _ _ _ h
                  have h2 : r + 1 ≤ p' := hrec.1
                  refine ⟨by omega, fun w hw => ?_⟩
                  omega
                · simp only [Option.some.injEq, Prod.mk.injEq] at h
                  obtain ⟨hres, hp⟩ := h
                  subst hp
                  exact ⟨by omega, fun w hw => by rw [← hres] at hw; cases hw⟩
              · simp only [Option.some.injEq, Prod.mk.injEq] at h
                obtain ⟨hres, hp⟩ := h
                subst hp
                exact ⟨by omega, fun w hw => by rw [← hres] at hw; cases hw⟩
          · simp only [Option.some.injEq, Prod.mk.injEq] at h
            obtain ⟨hres, hp⟩ := h
            subst hp
            exact ⟨le_refl pos, fun w hw => by rw [← hres] at hw; cases hw⟩

/-- Fuel stability: a call that completes with some amount of fuel
returns the same outcome with any larger amount. -/
theorem Parser.run_stable (tokens : List Token) :
    ∀ f₁ f₂ c r, f₁ ≤ f₂ → Parser.run tokens f₁ c = some r →
      Parser.run tokens f₂ c = some r := by
  intro f₁
  induction f₁ with
  | zero => intro f₂ c r hle h; simp [Parser.run] at h
  | succ n ih =>
      intro f₂ c r hle h
      cases f₂ with
      | zero => omega
      | succ m =>
          have hnm : n ≤ m := by omega
          cases c with
          | parse pos =>
              simp only [Parser.run] at h ⊢
              by_cases hlt : pos < tokens.length
              · rw [if_pos hlt] at h ⊢
                cases htok : tokens.getD pos Token.Eof <;> rw [htok] at h
                all_goals first
                  | exact h
                  | exact ih m _ _ hnm h
              · rw [if_neg hlt] at h ⊢
                exact h
          | parse_object pos =>
              simp only [Parser.run] at h ⊢
              by_cases hc : (pos + 1 < tokens.length &&
                  (tokens.getD (pos + 1) Token.Eof == Token.RightBrace)) = true
              · rw [if_pos hc] at h ⊢
                exact h
              · rw [if_neg hc] at h ⊢
                exact ih m _ _ hnm h
          | parse_array pos =>
              simp only [Parser.run] at h ⊢
              by_cases hc : (pos + 1 < tokens.length &&
                  (tokens.getD (pos + 1) Token.Eof == Token.RightBracket)) = true
              · rw [if_pos hc] at h ⊢
                exact h
              · rw [if_neg hc] at h ⊢
                exact ih m _ _ hnm h
          | object_loop pos pairs =>
              simp only [Parser.run] at h ⊢
              by_cases hlt : pos < tokens.length
              · rw [if_pos hlt] at h ⊢
                cases htok : tokens.getD pos Token.Eof <;> rw [htok] at h
                all_goals try exact h
                rename_i s
                · dsimp only at h ⊢
                  by_cases hcolon : (pos + 1 < tokens.length &&
                      (tokens.getD (pos + 1) Token.Eof == Token.Colon)) = true
                  · rw [if_pos hcolon] at h ⊢
                    cases hrun : Parser.run tokens n (PCall.parse (pos + 2)) with
                    | none =>
                        rw [hrun] at h
                        exact absurd h (by simp)
                    | some q =>
                        obtain ⟨res₂, r₂⟩ := q
                        have hrun2 : Parser.run tokens m (PCall.parse (pos + 2)) =
                            some (res₂, r₂) := ih m _ _ hnm hrun
                        rw [hrun] at h
                        rw [hrun2]
                        cases res₂ with
                        | error e =>
                            dsimp only at h ⊢
                            exact h
                        | ok v =>
                            dsimp only at h ⊢
                            by_cases hr : r₂ < tokens.length
                            · rw [if_pos hr] at h ⊢
                              cases htok2 : tokens.getD r₂ Token.Eof <;> rw [htok2] at h
                              all_goals first
                                | exact h
                                | exact ih m _ _ hnm h
                            · rw [if_neg hr] at h ⊢
                              exact h
                  · rw [if_neg hcolon] at h ⊢
                    exact h
              · rw [if_neg hlt] at h ⊢
                exact h
          | array_loop pos elems =>
              simp only [Parser.run] at h ⊢
              by_cases hlt : pos < tokens.length
              · rw [if_pos hlt] at h ⊢
                cases hrun : Parser.run tokens n (PCall.parse pos) with
                | none =>
                    rw [hrun] at h
                    exact absurd h (by simp)
                | some q =>
                    obtain ⟨res₂, r₂⟩ := q
                    have hrun2 : Parser.run tokens m (PCall.parse pos) =
                        some (res₂, r₂) := ih m _ _ hnm hrun
                    rw [hrun] at h
                    rw [hrun2]
                    cases res₂ with
                    | error e =>
                        dsimp only at h ⊢
                        exact h
                    | ok v =>
                        dsimp only at h ⊢
                        by_cases hr : r₂ < tokens.length
                        · rw [if_pos hr] at h ⊢
                          cases htok2 : tokens.getD r₂ Token.Eof <;> rw [htok2] at h
                          all_goals first
                            | exact h
                            | exact ih m _ _ hnm h
                        · rw [if_neg hr] at h ⊢
                          exact h
              · rw [if_neg hlt] at h ⊢
                exact h

/-- Totality: fuel `Parser.need tokens c` suffices — the step
interpreter never runs out of fuel from that budget. -/
theorem Parser.run_total (tokens : List Token) :
    ∀ fuel c, Parser.need tokens c ≤ fuel → (Parser.run tokens fuel c).isSome := by
  intro fuel
  induction fuel with
  | zero =>
      intro c h
      exfalso
      cases c <;> simp only [Parser.need, PCall.posOf, PCall.rank] at h <;> omega
  | succ n ih =>
      intro c h
      cases c with
      | parse pos =>
          simp only [Parser.need, PCall.posOf, PCall.rank] at h
          simp only [Parser.run]
          by_cases hlt : pos < tokens.length
          · rw [if_pos hlt]
            cases htok : tokens.getD pos Token.Eof
            all_goals first
              | rfl
              | exact ih _ (by simp only [Parser.need, PCall.posOf, PCall.rank]; omega)
          · rw [if_neg hlt]; rfl
      | parse_object pos =>
          simp only [Parser.need, PCall.posOf, PCall.rank] at h
          simp only [Parser.run]
          by_cases hc : (pos + 1 < tokens.length &&
              (tokens.getD (pos + 1) Token.Eof == Token.RightBrace)) = true
          · rw [if_pos hc]; rfl
          · rw [if_neg hc]
            by_cases hp : pos < tokens.length
            · exact ih _ (by simp only [Parser.need, PCall.posOf, PCall.rank]; omega)
            · cases n with
              | zero => omega
              | succ k =>
                  simp only [Parser.run]
                  rw [if_neg (by omega : ¬pos + 1 < tokens.length)]
                  rfl
      | parse_array pos =>
          simp only [Parser.need, PCall.posOf, PCall.rank] at h
          simp only [Parser.run]
          by_cases hc : (pos + 1 < tokens.length &&
              (tokens.getD (pos + 1) Token.Eof == Token.RightBracket)) = true
          · rw [if_pos hc]; rfl
          · rw [if_neg hc]
            by_cases hp : pos < tokens.length
            · exact ih _ (by simp only [Parser.need, PCall.posOf, PCall.rank]; omega)
            · cases n with
              | zero => omega
              | succ k =>
                  simp only [Parser.run]
                  rw [if_neg (by omega : ¬pos + 1 < tokens.length)]
                  rfl
      | object_loop pos pairs =>
          simp only [Parser.need, PCall.posOf, PCall.rank] at h
          simp only [Parser.run]
          by_cases hlt : pos < tokens.length
          · rw [if_pos hlt]
            cases htok : tokens.getD pos Token.Eof
            all_goals try rfl
            rename_i s
            dsimp only
            by_cases hcolon : (pos + 1 < tokens.length &&
                (tokens.getD (pos + 1) Token.Eof == Token.Colon)) = true
            · rw [if_pos hcolon]
              have hpar : (Parser.run tokens n (PCall.parse (pos + 2))).isSome :=
                ih _ (by simp only [Parser.need, PCall.posOf, PCall.rank]; omega)
              obtain ⟨q, hq⟩ := Option.isSome_iff_exists.mp hpar
              rw [hq]
              obtain ⟨res, r⟩ := q
              cases res with
              | error e => rfl
              | ok v =>
                  have hmono := Parser.run_mono tokens n _ _ _ hq
                  have hr2 : pos + 2 ≤ r := hmono.1
                  dsimp only
                  by_cases hr : r < tokens.length
                  · rw [if_pos hr]
                    cases htok2 : tokens.getD r Token.Eof
                    all_goals first
                      | rfl
                      | exact ih _
                          (by simp only [Parser.need, PCall.posOf, PCall.rank]; omega)
                  · rw [if_neg hr]; rfl
            · rw [if_neg hcolon]; rfl
          · rw [if_neg hlt]; rfl
      | array_loop pos elems =>
          simp only [Parser.need, PCall.posOf, PCall.rank] at h
          simp only [Parser.run]
          by_cases hlt : pos < tokens.length
          · rw [if_pos hlt]
            have hpar : (Parser.run tokens n (PCall.parse pos)).isSome :=
              ih _ (by simp only [Parser.need, PCall.posOf, PCall.rank]; omega)
            obtain ⟨q, hq⟩ := Option.isSome_iff_exists.mp hpar
            rw [hq]
            obtain ⟨res, r⟩ := q
            cases res with
            | error e => rfl
            | ok v =>
                have hmono := Parser.run_mono tokens n _ _ _ hq
                have hr2 : pos < r := hmono.2 v rfl
                dsimp only
                by_cases hr : r < tokens.length
                · rw [if_pos hr]
                  cases htok2 : tokens.getD r Token.Eof
                  all_goals first
                    | rfl
                    | exact ih _
                        (by simp only [Parser.need, PCall.posOf, PCall.rank]; omega)
                · rw [if_neg hr]; rfl
          · rw [if_neg hlt]; rfl

/-! ## Fuel-free wrappers -/

/-- Fuel budget used by the fuel-free wrappers. -/
def Parser.fuel (tokens : List Token) : Nat := 4 * tokens.length + 10

/-- Any call's need is below the wrapper budget. -/
theorem Parser.need_le_aux (tokens : List Token) (c : PCall) :
    Parser.need tokens c ≤ 4 * tokens.length + 9 := by
  cases c <;> simp only [Parser.need, PCall.posOf, PCall.rank] <;> omega

/-- The wrapper budget is sufficient fuel for every call. -/
theorem Parser.run_fuel_isSome (tokens : List Token) (c : PCall) :
    (Parser.run tokens (Parser.fuel tokens) c).isSome :=
  Parser.run_total tokens _ c
    (le_trans (Parser.need_le_aux tokens c) (by simp only [Parser.fuel]; omega))

/-- Fuel-free interpretation of one parser call. -/
def Parser.call (tokens : List Token) (c : PCall) : Except String JsonValue × Nat :=
  (Parser.run tokens (Parser.fuel tokens) c).get (Parser.run_fuel_isSome tokens c)

/-- `Parser::parse` (`main.rs` 154-186) as a total function: the outcome
together with the new read position. -/
def Parser.parse (tokens : List Token) (pos : Nat) : Except String JsonValue × Nat :=
  Parser.call tokens (PCall.parse pos)

/-- `Parser::parse_object` (`main.rs` 188-240) as a total function. -/
def Parser.parse_object (tokens : List Token) (pos : Nat) : Except String JsonValue × Nat :=
  Parser.call tokens (PCall.parse_object pos)

/-- `Parser::parse_array` (`main.rs` 242-276) as a total function. -/
def Parser.parse_array (tokens : List Token) (pos : Nat) : Except String JsonValue × Nat :=
  Parser.call tokens (PCall.parse_array pos)

/-- The key/colon/value/separator `loop` of `Parser::parse_object`
(`main.rs` 197-237) as a total function of the loop state. -/
def Parser.object_loop (tokens : List Token) (pos : Nat)
    (pairs : List (List Char × JsonValue)) : Except String JsonValue × Nat :=
  Parser.call tokens (PCall.object_loop pos pairs)

/-- The value/separator `loop` of `Parser::parse_array` (`main.rs`
251-274) as a total function of the loop state. -/
def Parser.array_loop (tokens : List Token) (pos : Nat)
    (elems : List JsonValue) : Except String JsonValue × Nat :=
  Parser.call tokens (PCall.array_loop pos elems)

/-- The step interpreter at the wrapper budget returns the wrapper
value. -/
theorem Parser.run_call (tokens : List Token) (c : PCall) :
    Parser.run tokens (Parser.fuel tokens) c = some (Parser.call tokens c) :=
  (Option.some_get _).symm

/-- Two completed runs of the same call agree, whatever their fuels. -/
theorem Parser.run_agree (tokens : List Token) (f₁ f₂ : Nat) (c : PCall)
    (r₁ r₂ : Except String JsonValue × Nat)
    (h₁ : Parser.run tokens f₁ c = some r₁) (h₂ : Parser.run tokens f₂ c = some r₂) :
    r₁ = r₂ := by
  rcases le_total f₁ f₂ with h | h
  · have h3 := Parser.run_stable tokens f₁ f₂ c r₁ h h₁
    rw [h3] at h₂
    exact Option.some.inj h₂
  · have h3 := Parser.run_stable tokens f₂ f₁ c r₂ h h₂
    rw [h3] at h₁
    exact (Option.some.inj h₁).symm

/-- Any sufficient fuel computes the wrapper value. -/
theorem Parser.run_eq_call (tokens : List Token) (f : Nat) (c : PCall)
    (h : Parser.need tokens c ≤ f) :
    Parser.run tokens f c = some (Parser.call tokens c) := by
  obtain ⟨r, hr⟩ := Option.isSome_iff_exists.mp (Parser.run_total tokens f c h)
  rw [hr]
  exact congrArg some (Parser.run_agree tokens f (Parser.fuel tokens) c r _ hr
    (Parser.run_call tokens c))

/-- `run_eq_call` specialised to `parse`, stated with the wrapper name. -/
theorem Parser.run_eq_parse (tokens : List Token) (f pos : Nat)
    (h : Parser.need tokens (PCall.parse pos) ≤ f) :
    Parser.run tokens f (PCall.parse pos) = some (Parser.parse tokens pos) :=
  Parser.run_eq_call tokens f _ h

/-- `run_eq_call` specialised to the object loop. -/
theorem Parser.run_eq_object_loop (tokens : List Token) (f pos : Nat)
    (pairs : List (List Char × JsonValue))
    (h : Parser.need tokens (PCall.object_loop pos pairs) ≤ f) :
    Parser.run tokens f (PCall.object_loop pos pairs) =
      some (Parser.object_loop tokens pos pairs) :=
  Parser.run_eq_call tokens f _ h

/-- `run_eq_call` specialised to the array loop. -/
theorem Parser.run_eq_array_loop (tokens : List Token) (f pos : Nat)
    (elems : List JsonValue)
    (h : Parser.need tokens (PCall.array_loop pos elems) ≤ f) :
    Parser.run tokens f (PCall.array_loop pos elems) =
      some (Parser.array_loop tokens pos elems) :=
  Parser.run_eq_call tokens f _ h

/-- The wrapper budget is one more than a still-sufficient budget. -/
theorem Parser.fuel_succ (tokens : List Token) :
    Parser.fuel tokens = (4 * tokens.length + 9) + 1 := by
  simp only [Parser.fuel]

/-- One-step equation for `Parser::parse`: the LL(1) dispatch on the
current token (`main.rs` 154-186). -/
theorem Parser.parse_eq (tokens : List Token) (pos : Nat) :
    Parser.parse tokens pos =
      if pos < tokens.length then
        match tokens.getD pos Token.Eof with
        | Token.LeftBrace => Parser.parse_object tokens pos
        | Token.LeftBracket => Parser.parse_array tokens pos
        | Token.String s => (Except.ok (JsonValue.String s), pos + 1)
        | Token.Number n => (Except.ok (JsonValue.Number n), pos + 1)
        | Token.True => (Except.ok (JsonValue.Bool true), pos + 1)
        | Token.False => (Except.ok (JsonValue.Bool false), pos + 1)
        | Token.Null => (Except.ok JsonValue.Null, pos + 1)
        | _ => (Except.error "Invalid JSON structure", pos)
      else (Except.error "Unexpected end of input", pos) := by
  have h1 := Parser.run_call tokens (PCall.parse pos)
  obtain ⟨k, hk, hkge⟩ : ∃ k, Parser.fuel tokens = k + 1 ∧ 4 * tokens.length + 9 ≤ k :=
    ⟨4 * tokens.length + 9, Parser.fuel_succ tokens, le_refl _⟩
  rw [hk] at h1
  simp only [Parser.run] at h1
  by_cases hlt : pos < tokens.length
  · rw [if_pos hlt] at h1
    rw [if_pos hlt]
    cases htok : tokens.getD pos Token.Eof <;> rw [htok] at h1
    all_goals try exact (Option.some.inj h1).symm
    · have h2 := Parser.run_eq_call tokens k (PCall.parse_object pos)
        (le_trans (Parser.need_le_aux tokens _) hkge)
      rw [h2] at h1
      exact (Option.some.inj h1).symm
    · have h2 := Parser.run_eq_call tokens k (PCall.parse_array pos)
        (le_trans (Parser.need_le_aux tokens _) hkge)
      rw [h2] at h1
      exact (Option.some.inj h1).symm
  · rw [if_neg hlt] at h1
    rw [if_neg hlt]
    exact (Option.some.inj h1).symm

/-- One-step equation for `Parser::parse_object` (`main.rs` 188-196):
skip the `{`, short-circuit the empty object, otherwise enter the loop
with an empty pair accumulator. -/
theorem Parser.parse_object_eq (tokens : List Token) (pos : Nat) :
    Parser.parse_object tokens pos =
      if pos + 1 < tokens.length && (tokens.getD (pos + 1) Token.Eof == Token.RightBrace) then
        (Except.ok (JsonValue.Object []), pos + 2)
      else Parser.object_loop tokens (pos + 1) [] := by
  have h1 := Parser.run_call tokens (PCall.parse_object pos)
  obtain ⟨k, hk, hkge⟩ : ∃ k, Parser.fuel tokens = k + 1 ∧ 4 * tokens.length + 9 ≤ k :=
    ⟨4 * tokens.length + 9, Parser.fuel_succ tokens, le_refl _⟩
  rw [hk] at h1
  simp only [Parser.run] at h1
  by_cases hc : (pos + 1 < tokens.length &&
      (tokens.getD (pos + 1) Token.Eof == Token.RightBrace)) = true
  · rw [if_pos hc] at h1
    rw [if_pos hc]
    exact (Option.some.inj h1).symm
  · rw [if_neg hc] at h1
    rw [if_neg hc]
    have h2 := Parser.run_eq_call tokens k (PCall.object_loop (pos + 1) [])
      (le_trans (Parser.need_le_aux tokens _) hkge)
    rw [h2] at h1
    exact (Option.some.inj h1).symm

/-- One-step equation for `Parser::parse_array` (`main.rs` 242-250). -/
theorem Parser.parse_array_eq (tokens : List Token) (pos : Nat) :
    Parser.parse_array tokens pos =
      if pos + 1 < tokens.length && (tokens.getD (pos + 1) Token.Eof == Token.RightBracket) then
        (Except.ok (JsonValue.Array []), pos + 2)
      else Parser.array_loop tokens (pos + 1) [] := by
  have h1 := Parser.run_call tokens (PCall.parse_array pos)
  obtain ⟨k, hk, hkge⟩ : ∃ k, Parser.fuel tokens = k + 1 ∧ 4 * tokens.length + 9 ≤ k :=
    ⟨4 * tokens.length + 9, Parser.fuel_succ tokens, le_refl _⟩
  rw [hk] at h1
  simp only [Parser.run] at h1
  by_cases hc : (pos + 1 < tokens.length &&
      (tokens.getD (pos + 1) Token.Eof == Token.RightBracket)) = true
  · rw [if_pos hc] at h1
    rw [if_pos hc]
    exact (Option.some.inj h1).symm
  · rw [if_neg hc] at h1
    rw [if_neg hc]
    have h2 := Parser.run_eq_call tokens k (PCall.array_loop (pos + 1) [])
      (le_trans (Parser.need_le_aux tokens _) hkge)
    rw [h2] at h1
    exact (Option.some.inj h1).symm

/-- One-step equation for the object loop (`main.rs` 197-237): end of
input fails "Unclosed object"; a non-string key fails "Expected string
key"; a missing colon fails "Expected colon after key"; then the value
is parsed recursively and the separator decides between terminating on
`}`, continuing on `,`, and the remaining errors. -/
theorem Parser.object_loop_eq (tokens : List Token) (pos : Nat)
    (pairs : List (List Char × JsonValue)) :
    Parser.object_loop tokens pos pairs =
      if pos < tokens.length then
        match tokens.getD pos Token.Eof with
        | Token.String s =>
            if pos + 1 < tokens.length && (tokens.getD (pos + 1) Token.Eof == Token.Colon) then
              match Parser.parse tokens (pos + 2) with
              | (Except.error e, r) => (Except.error e, r)
              | (Except.ok v, r) =>
                  if r < tokens.length then
                    match tokens.getD r Token.Eof with
                    | Token.RightBrace =>
                        (Except.ok (JsonValue.Object (pairs ++ [(s, v)])), r + 1)
                    | Token.Comma => Parser.object_loop tokens (r + 1) (pairs ++ [(s, v)])
                    | _ => (Except.error "Expected commna or closing brace", r)
                  else (Except.error "Unclosed object", r)
            else (Except.error "Expected colon after key", pos + 1)
        | _ => (Except.error "Expected string key", pos)
      else (Except.error "Unclosed object", pos) := by
  have h1 := Parser.run_call tokens (PCall.object_loop pos pairs)
  obtain ⟨k, hk, hkge⟩ : ∃ k, Parser.fuel tokens = k + 1 ∧ 4 * tokens.length + 9 ≤ k :=
    ⟨4 * tokens.length + 9, Parser.fuel_succ tokens, le_refl _⟩
  rw [hk] at h1
  simp only [Parser.run] at h1
  by_cases hlt : pos < tokens.length
  · rw [if_pos hlt] at h1
    rw [if_pos hlt]
    cases htok : tokens.getD pos Token.Eof <;> rw [htok] at h1
    all_goals try exact (Option.some.inj h1).symm
    rename_i s
    dsimp only at h1 ⊢
    by_cases hcolon : (pos + 1 < tokens.length &&
        (tokens.getD (pos + 1) Token.Eof == Token.Colon)) = true
    · rw [if_pos hcolon] at h1
      rw [if_pos hcolon]
      have h2 := Parser.run_eq_parse tokens k (pos + 2)
        (le_trans (Parser.need_le_aux tokens _) hkge)
      rw [h2] at h1
      cases hpp : Parser.parse tokens (pos + 2) with
      | mk res r =>
          rw [hpp] at h1
          cases res with
          | error e =>
              dsimp only at h1 ⊢
              exact (Option.some.inj h1).symm
          | ok v =>
              dsimp only at h1 ⊢
              by_cases hr : r < tokens.length
              · rw [if_pos hr] at h1
                rw [if_pos hr]
                cases htok2 : tokens.getD r Token.Eof <;> rw [htok2] at h1
                all_goals try exact (Option.some.inj h1).symm
                have h3 := Parser.run_eq_object_loop tokens k (r + 1) (pairs ++ [(s, v)])
                  (le_trans (Parser.need_le_aux tokens _) hkge)
                rw [h3] at h1
                exact (Option.some.inj h1).symm
              · rw [if_neg hr] at h1
                rw [if_neg hr]
                exact (Option.some.inj h1).symm
    · rw [if_neg hcolon] at h1
      rw [if_neg hcolon]
      exact (Option.some.inj h1).symm
  · rw [if_neg hlt] at h1
    rw [if_neg hlt]
    exact (Option.some.inj h1).symm

/-- One-step equation for the array loop (`main.rs` 251-274). -/
theorem Parser.array_loop_eq (tokens : List Token) (pos : Nat)
    (elems : List JsonValue) :
    Parser.array_loop tokens pos elems =
      if pos < tokens.length then
        match Parser.parse tokens pos with
        | (Except.error e, r) => (Except.error e, r)
        | (Except.ok v, r) =>
            if r < tokens.length then
              match tokens.getD r Token.Eof with
              | Token.RightBracket => (Except.ok (JsonValue.Array (elems ++ [v])), r + 1)
              | Token.Comma => Parser.array_loop tokens (r + 1) (elems ++ [v])
              | _ => (Except.error "Expected comma or closing bracket", r)
            else (Except.error "Unclosed array", r)
      else (Except.error "Unclosed array", pos) := by
  have h1 := Parser.run_call tokens (PCall.array_loop pos elems)
  obtain ⟨k, hk, hkge⟩ : ∃ k, Parser.fuel tokens = k + 1 ∧ 4 * tokens.length + 9 ≤ k :=
    ⟨4 * tokens.length + 9, Parser.fuel_succ tokens, le_refl _⟩
  rw [hk] at h1
  simp only [Parser.run] at h1
  by_cases hlt : pos < tokens.length
  · rw [if_pos hlt] at h1
    rw [if_pos hlt]
    have h2 := Parser.run_eq_parse tokens k pos
      (le_trans (Parser.need_le_aux tokens _) hkge)
    rw [h2] at h1
    cases hpp : Parser.parse tokens pos with
    | mk res r =>
        rw [hpp] at h1
        cases res with
        | error e =>
            dsimp only at h1 ⊢
            exact (Option.some.inj h1).symm
        | ok v =>
            dsimp only at h1 ⊢
            by_cases hr : r < tokens.length
            · rw [if_pos hr] at h1
              rw [if_pos hr]
              cases htok2 : tokens.getD r Token.Eof <;> rw [htok2] at h1
              all_goals try exact (Option.some.inj h1).symm
              have h3 := Parser.run_eq_array_loop tokens k (r + 1) (elems ++ [v])
                (le_trans (Parser.need_le_aux tokens _) hkge)
              rw [h3] at h1
              exact (Option.some.inj h1).symm
            · rw [if_neg hr] at h1
              rw [if_neg hr]
              exact (Option.some.inj h1).symm
  · rw [if_neg hlt] at h1
    rw [if_neg hlt]
    exact (Option.some.inj h1).symm

/-- The object loop entered past the end of the token stream fails with
"Unclosed object" on the spot. -/
theorem Parser.run_object_loop_oob (tokens : List Token) (fuel q : Nat)
    (pairs : List (List Char × JsonValue)) (res : Except String JsonValue) (p' : Nat)
    (h : Parser.run tokens fuel (PCall.object_loop q pairs) = some (res, p'))
    (hq : tokens.length ≤ q) :
    res = Except.error "Unclosed object" ∧ p' = q := by
  cases fuel with
  | zero => simp [Parser.run] at h
  | succ n =>
      simp only [Parser.run] at h
      rw [if_neg (by omega)] at h
      simp only [Option.some.injEq, Prod.mk.injEq] at h
      exact ⟨h.1.symm, h.2.symm⟩

/-- The array loop entered past the end of the token stream fails with
"Unclosed array" on the spot. -/
theorem Parser.run_array_loop_oob (tokens : List Token) (fuel q : Nat)
    (elems : List JsonValue) (res : Except String JsonValue) (p' : Nat)
    (h : Parser.run tokens fuel (PCall.array_loop q elems) = some (res, p'))
    (hq : tokens.length ≤ q) :
    res = Except.error "Unclosed array" ∧ p' = q := by
  cases fuel with
  | zero => simp [Parser.run] at h
  | succ n =>
      simp only [Parser.run] at h
      rw [if_neg (by omega)] at h
      simp only [Option.some.injEq, Prod.mk.injEq] at h
      exact ⟨h.1.symm, h.2.symm⟩

/-- Appending tokens after the consumed region does not disturb a
successful run: a success only ever inspects tokens it consumes. -/
theorem Parser.run_append (tokens extra : List Token) :
    ∀ fuel c v p', Parser.run tokens fuel c = some (Except.ok v, p') →
      Parser.run (tokens ++ extra) fuel c = some (Except.ok v, p') := by
  intro fuel
  induction fuel with
  | zero => intro c v p' h; simp [Parser.run] at h
  | succ n ih =>
      intro c v p' h
      have hlen : (tokens ++ extra).length = tokens.length + extra.length :=
        List.length_append _ _
      cases c with
      | parse pos =>
          simp only [Parser.run] at h ⊢
          by_cases hlt : pos < tokens.length
          · have hlt2 : pos < (tokens ++ extra).length := by omega
            have hget : (tokens ++ extra).getD pos Token.Eof = tokens.getD pos Token.Eof :=
              List.getD_append _ _ _ _ hlt
            rw [if_pos hlt] at h
            rw [if_pos hlt2, hget]
            cases htok : tokens.getD pos Token.Eof <;> rw [htok] at h
            all_goals first
              | exact h
              | exact ih _ _ _ h
          · rw [if_neg hlt] at h
            exact absurd h (by simp)
      | parse_object pos =>
          simp only [Parser.run] at h ⊢
          by_cases hc : (pos + 1 < tokens.length &&
              (tokens.getD (pos + 1) Token.Eof == Token.RightBrace)) = true
          · rw [if_pos hc] at h
            rw [Bool.and_eq_true, decide_eq_true_eq, beq_iff_eq] at hc
            have hc2 : (pos + 1 < (tokens ++ extra).length &&
                ((tokens ++ extra).getD (pos + 1) Token.Eof == Token.RightBrace)) = true := by
              rw [Bool.and_eq_true, decide_eq_true_eq, beq_iff_eq]
              exact ⟨by omega, by rw [List.getD_append _ _ _ _ hc.1]; exact hc.2⟩
            rw [if_pos hc2]
            exact h
          · rw [if_neg hc] at h
            by_cases hp : pos + 1 < tokens.length
            · have hne : ¬tokens.getD (pos + 1) Token.Eof = Token.RightBrace := by
                intro hcontra
                apply hc
                rw [Bool.and_eq_true, decide_eq_true_eq, beq_iff_eq]
                exact ⟨hp, hcontra⟩
              have hc2 : ¬((pos + 1 < (tokens ++ extra).length &&
                  ((tokens ++ extra).getD (pos + 1) Token.Eof == Token.RightBrace)) = true) := by
                rw [Bool.and_eq_true, decide_eq_true_eq, beq_iff_eq]
                rintro ⟨h1, h2⟩
                rw [List.getD_append _ _ _ _ hp] at h2
                exact hne h2
              rw [if_neg hc2]
              exact ih _ _ _ h
            · have hoob := Parser.run_object_loop_oob tokens n (pos + 1) [] _ _ h (by omega)
              exact absurd hoob.1 (by simp)
      | parse_array pos =>
          simp only [Parser.run] at h ⊢
          by_cases hc : (pos + 1 < tokens.length &&
              (tokens.getD (pos + 1) Token.Eof == Token.RightBracket)) = true
          · rw [if_pos hc] at h
            rw [Bool.and_eq_true, decide_eq_true_eq, beq_iff_eq] at hc
            have hc2 : (pos + 1 < (tokens ++ extra).length &&
                ((tokens ++ extra).getD (pos + 1) Token.Eof == Token.RightBracket)) = true := by
              rw [Bool.and_eq_true, decide_eq_true_eq, beq_iff_eq]
              exact ⟨by omega, by rw [List.getD_append _ _ _ _ hc.1]; exact hc.2⟩
            rw [if_pos hc2]
            exact h
          · rw [if_neg hc] at h
            by_cases hp : pos + 1 < tokens.length
            · have hne : ¬tokens.getD (pos + 1) Token.Eof = Token.RightBracket := by
                intro hcontra
                apply hc
                rw [Bool.and_eq_true, decide_eq_true_eq, beq_iff_eq]
                exact ⟨hp, hcontra⟩
              have hc2 : ¬((pos + 1 < (tokens ++ extra).length &&
                  ((tokens ++ extra).getD (pos + 1) Token.Eof == Token.RightBracket)) = true) := by
                rw [Bool.and_eq_true, decide_eq_true_eq, beq_iff_eq]
                rintro ⟨h1, h2⟩
                rw [List.getD_append _ _ _ _ hp] at h2
                exact hne h2
              rw [if_neg hc2]
              exact ih _ _ _ h
            · have hoob := Parser.run_array_loop_oob tokens n (pos + 1) [] _ _ h (by omega)
              exact absurd hoob.1 (by simp)
      | object_loop pos pairs =>
          simp only [Parser.run] at h ⊢
          by_cases hlt : pos < tokens.length
          · have hlt2 : pos < (tokens ++ extra).length := by omega
            have hget : (tokens ++ extra).getD pos Token.Eof = tokens.getD pos Token.Eof :=
              List.getD_append _ _ _ _ hlt
            rw [if_pos hlt] at h
            rw [if_pos hlt2, hget]
            cases htok : tokens.getD pos Token.Eof <;> rw [htok] at h
            all_goals try exact h
            rename_i s
            dsimp only at h ⊢
            by_cases hcolon : (pos + 1 < tokens.length &&
                (tokens.getD (pos + 1) Token.Eof == Token.Colon)) = true
            · rw [if_pos hcolon] at h
              rw [Bool.and_eq_true, decide_eq_true_eq, beq_iff_eq] at hcolon
              have hcolon2 : (pos + 1 < (tokens ++ extra).length &&
                  ((tokens ++ extra).getD (pos + 1) Token.Eof == Token.Colon)) = true := by
                rw [Bool.and_eq_true, decide_eq_true_eq, beq_iff_eq]
                exact ⟨by omega, by rw [List.getD_append _ _ _ _ hcolon.1]; exact hcolon.2⟩
              rw [if_pos hcolon2]
              cases hrun : Parser.run tokens n (PCall.parse (pos + 2)) with
              | none =>
                  rw [hrun] at h
                  exact absurd h (by simp)
              | some q =>
                  obtain ⟨res, r⟩ := q
                  rw [hrun] at h
                  cases res with
                  | error e =>
                      dsimp only at h
                      exact absurd h (by simp)
                  | ok w =>
                      have hrun2 : Parser.run (tokens ++ extra) n (PCall.parse (pos + 2)) =
                          some (Except.ok w, r) := ih _ _ _ hrun
                      rw [hrun2]
                      dsimp only at h ⊢
                      by_cases hr : r < tokens.length
                      · have hr2 : r < (tokens ++ extra).length := by omega
                        have hgetr : (tokens ++ extra).getD r Token.Eof =
                            tokens.getD r Token.Eof := List.getD_append _ _ _ _ hr
                        rw [if_pos hr] at h
                        rw [if_pos hr2, hgetr]
                        cases htok2 : tokens.getD r Token.Eof <;> rw [htok2] at h
                        all_goals first
                          | exact h
                          | exact ih _ _ _ h
                      · rw [if_neg hr] at h
                        exact absurd h (by simp)
            · rw [if_neg hcolon] at h
              exact absurd h (by simp)
          · rw [if_neg hlt] at h
            exact absurd h (by simp)
      | array_loop pos elems =>
          simp only [Parser.run] at h ⊢
          by_cases hlt : pos < tokens.length
          · have hlt2 : pos < (tokens ++ extra).length := by omega
            rw [if_pos hlt] at h
            rw [if_pos hlt2]
            cases hrun : Parser.run tokens n (PCall.parse pos) with
            | none =>
                rw [hrun] at h
                exact absurd h (by simp)
            | some q =>
                obtain ⟨res, r⟩ := q
                rw [hrun] at h
                cases res with
                | error e =>
                    dsimp only at h
                    exact absurd h (by simp)
                | ok w =>
                    have hrun2 : Parser.run (tokens ++ extra) n (PCall.parse pos) =
                        some (Except.ok w, r) := ih _ _ _ hrun
                    rw [hrun2]
                    dsimp only at h ⊢
                    by_cases hr : r < tokens.length
                    · have hr2 : r < (tokens ++ extra).length := by omega
                      have hgetr : (tokens ++ extra).getD r Token.Eof =
                          tokens.getD r Token.Eof := List.getD_append _ _ _ _ hr
                      rw [if_pos hr] at h
                      rw [if_pos hr2, hgetr]
                      cases htok2 : tokens.getD r Token.Eof <;> rw [htok2] at h
                      all_goals first
                        | exact h
                        | exact ih _ _ _ h
                    · rw [if_neg hr] at h
                      exact absurd h (by simp)
          · rw [if_neg hlt] at h
            exact absurd h (by simp)

/-- A successful object loop only ever appends to the accumulated pair
list: insertion order is preserved and nothing is merged or dropped. -/
theorem Parser.run_object_loop_pairs (tokens : List Token) :
    ∀ fuel pos pairs w p',
      Parser.run tokens fuel (PCall.object_loop pos pairs) = some (Except.ok w, p') →
      ∃ rest, w = JsonValue.Object (pairs ++ rest) := by
  intro fuel
  induction fuel with
  | zero => intro pos pairs w p' h; simp [Parser.run] at h
  | succ n ih =>
      intro pos pairs w p' h
      simp only [Parser.run] at h
      by_cases hlt : pos < tokens.length
      · rw [if_pos hlt] at h
        cases htok : tokens.getD pos Token.Eof <;> rw [htok] at h
        all_goals try (injection h with h1; injection h1 with h3 h4; cases h3)
        rename_i s
        dsimp only at h
        by_cases hcolon : (pos + 1 < tokens.length &&
            (tokens.getD (pos + 1) Token.Eof == Token.Colon)) = true
        · rw [if_pos hcolon] at h
          cases hrun : Parser.run tokens n (PCall.parse (pos + 2)) with
          | none =>
              rw [hrun] at h
              exact absurd h (by simp)
          | some q =>
              obtain ⟨res, r⟩ := q
              rw [hrun] at h
              cases res with
              | error e =>
                  dsimp only at h
                  exact absurd h (by simp)
              | ok v =>
                  dsimp only at h
                  by_cases hr : r < tokens.length
                  · rw [if_pos hr] at h
                    cases htok2 : tokens.getD r Token.Eof <;> rw [htok2] at h
                    all_goals try (obtain ⟨rest, hrest⟩ := ih _ _ _ _ h
                                   exact ⟨[(s, v)] ++ rest, by rw [hrest, List.append_assoc]⟩)
                    all_goals try (refine ⟨[(s, v)], ?_⟩
                                   simp only [Option.some.injEq, Prod.mk.injEq] at h
                                   exact (Except.ok.inj h.1).symm)
                    all_goals (injection h with h1; injection h1 with h3 h4; cases h3)
                  · rw [if_neg hr] at h
                    exact absurd h (by simp)
        · rw [if_neg hcolon] at h
          exact absurd h (by simp)
      · rw [if_neg hlt] at h
        exact absurd h (by simp)

/-- Wrapper-level cursor facts: monotone always, strict on success. -/
theorem Parser.call_mono (tokens : List Token) (c : PCall) :
    c.posOf ≤ (Parser.call tokens c).2 ∧
      ∀ v, (Parser.call tokens c).1 = Except.ok v → c.posOf < (Parser.call tokens c).2 :=
  Parser.run_mono tokens (Parser.fuel tokens) c _ _ (Parser.run_call tokens c)

/-- Wrapper-level append invariance for `Parser::parse`. -/
theorem Parser.parse_append (tokens extra : List Token) (pos : Nat)
    (v : JsonValue) (p' : Nat) (h : Parser.parse tokens pos = (Except.ok v, p')) :
    Parser.parse (tokens ++ extra) pos = (Except.ok v, p') := by
  have h1 := Parser.run_eq_parse tokens (Parser.fuel tokens) pos
    (le_trans (Parser.need_le_aux tokens _) (by simp only [Parser.fuel]; omega))
  rw [h] at h1
  have h2 := Parser.run_append tokens extra _ _ _ _ h1
  have h3 := Parser.run_eq_parse (tokens ++ extra) (Parser.fuel (tokens ++ extra)) pos
    (le_trans (Parser.need_le_aux (tokens ++ extra) _) (by simp only [Parser.fuel]; omega))
  exact (Parser.run_agree (tokens ++ extra) (Parser.fuel tokens)
    (Parser.fuel (tokens ++ extra)) _ _ _ h2 h3).symm

/-- The characters that start a specific token in `next_token`'s
dispatch; everything else falls to the `Whitespace` catch-all. -/
def lexer_recognized (c : Char) : Prop :=
  c = '{' ∨ c = '}' ∨ c = '[' ∨ c = ']' ∨ c = ':' ∨ c = ',' ∨ c = '"' ∨
  c = 't' ∨ c = 'f' ∨ c = 'n' ∨ c.isDigit = true ∨ c = '-'

/-- An unrecognized character is consumed and degrades to `Whitespace`. -/
theorem next_token_unrecognized (input : List Char) (pos : Nat)
    (hlt : Lexer.skio_whitespace input pos < input.length)
    (hur : ¬lexer_recognized (input.getD (Lexer.skio_whitespace input pos) ' ')) :
    Lexer.next_token input pos = (Token.Whitespace, Lexer.skio_whitespace input pos + 1) := by
  simp only [lexer_recognized, not_or] at hur
  obtain ⟨h1, h2, h3, h4, h5, h6, h7, h8, h9, h10, h11, h12⟩ := hur
  have hnum : ¬(((input.getD (Lexer.skio_whitespace input pos) ' ').isDigit ||
      decide (input.getD (Lexer.skio_whitespace input pos) ' ' = '-')) = true) := by
    rw [Bool.or_eq_true, decide_eq_true_eq]
    rintro (hh | hh)
    · exact h11 hh
    · exact h12 hh
  simp only [Lexer.next_token]
  rw [if_pos hlt, if_neg h1, if_neg h2, if_neg h3, if_neg h4, if_neg h5, if_neg h6,
    if_neg h7, if_neg h8, if_neg h9, if_neg h10, if_neg hnum]

/-- A `t` whose following characters do not spell `true` degrades to
`Whitespace`, consuming only the `t`. -/
theorem next_token_true_mismatch (input : List Char) (pos : Nat)
    (hlt : Lexer.skio_whitespace input pos < input.length)
    (hch : input.getD (Lexer.skio_whitespace input pos) ' ' = 't')
    (hg : ¬(Lexer.skio_whitespace input pos + 4 ≤ input.length ∧
      (input.drop (Lexer.skio_whitespace input pos)).take 4 = ['t', 'r', 'u', 'e'])) :
    Lexer.next_token input pos = (Token.Whitespace, Lexer.skio_whitespace input pos + 1) := by
  simp only [Lexer.next_token]
  rw [if_pos hlt, hch]
  rw [if_neg (by decide : ¬('t' : Char) = '{'), if_neg (by decide : ¬('t' : Char) = '}'),
    if_neg (by decide : ¬('t' : Char) = '['), if_neg (by decide : ¬('t' : Char) = ']'),
    if_neg (by decide : ¬('t' : Char) = ':'), if_neg (by decide : ¬('t' : Char) = ','),
    if_neg (by decide : ¬('t' : Char) = '"'), if_pos (rfl : ('t' : Char) = 't')]
  simp only [Lexer.read_true]
  rw [if_neg]
  rw [Bool.and_eq_true, decide_eq_true_eq, beq_iff_eq]
  rintro ⟨ha, hb⟩
  refine hg ⟨by omega, ?_⟩
  simpa [Nat.add_sub_cancel] using hb

/-- An `f` whose following characters do not spell `false` degrades to
`Whitespace`, consuming only the `f`. -/
theorem next_token_false_mismatch (input : List Char) (pos : Nat)
    (hlt : Lexer.skio_whitespace input pos < input.length)
    (hch : input.getD (Lexer.skio_whitespace input pos) ' ' = 'f')
    (hg : ¬(Lexer.skio_whitespace input pos + 5 ≤ input.length ∧
      (input.drop (Lexer.skio_whitespace input pos)).take 5 = ['f', 'a', 'l', 's', 'e'])) :
    Lexer.next_token input pos = (Token.Whitespace, Lexer.skio_whitespace input pos + 1) := by
  simp only [Lexer.next_token]
  rw [if_pos hlt, hch]
  rw [if_neg (by decide : ¬('f' : Char) = '{'), if_neg (by decide : ¬('f' : Char) = '}'),
    if_neg (by decide : ¬('f' : Char) = '['), if_neg (by decide : ¬('f' : Char) = ']'),
    if_neg (by decide : ¬('f' : Char) = ':'), if_neg (by decide : ¬('f' : Char) = ','),
    if_neg (by decide : ¬('f' : Char) = '"'), if_neg (by decide : ¬('f' : Char) = 't'),
    if_pos (rfl : ('f' : Char) = 'f')]
  simp only [Lexer.read_false]
  rw [if_neg]
  rw [Bool.and_eq_true, decide_eq_true_eq, beq_iff_eq]
  rintro ⟨ha, hb⟩
  refine hg ⟨by omega, ?_⟩
  simpa [Nat.add_sub_cancel] using hb

/-- An `n` whose following characters do not spell `null` degrades to
`Whitespace`, consuming only the `n`. -/
theorem next_token_null_mismatch (input : List Char) (pos : Nat)
    (hlt : Lexer.skio_whitespace input pos < input.length)
    (hch : input.getD (Lexer.skio_whitespace input pos) ' ' = 'n')
    (hg : ¬(Lexer.skio_whitespace input pos + 4 ≤ input.length ∧
      (input.drop (Lexer.skio_whitespace input pos)).take 4 = ['n', 'u', 'l', 'l'])) :
    Lexer.next_token input pos = (Token.Whitespace, Lexer.skio_whitespace input pos + 1) := by
  simp only [Lexer.next_token]
  rw [if_pos hlt, hch]
  rw [if_neg (by decide : ¬('n' : Char) = '{'), if_neg (by decide : ¬('n' : Char) = '}'),
    if_neg (by decide : ¬('n' : Char) = '['), if_neg (by decide : ¬('n' : Char) = ']'),
    if_neg (by decide : ¬('n' : Char) = ':'), if_neg (by decide : ¬('n' : Char) = ','),
    if_neg (by decide : ¬('n' : Char) = '"'), if_neg (by decide : ¬('n' : Char) = 't'),
    if_neg (by decide : ¬('n' : Char) = 'f'), if_pos (rfl : ('n' : Char) = 'n')]
  simp only [Lexer.read_null]
  rw [if_neg]
  rw [Bool.and_eq_true, decide_eq_true_eq, beq_iff_eq]
  rintro ⟨ha, hb⟩
  refine hg ⟨by omega, ?_⟩
  simpa [Nat.add_sub_cancel] using hb

/-! ## Claims -/

/-- C1 (counterexample): reaching end of input inside the object loop at
the colon position fails with "Expected colon after key", not with
"Unclosed object": on the tokens of `{"a"` the parse error differs from
the claimed one. -/
theorem c1_unclosed_object_counterexample :
    Parser.parse [Token.LeftBrace, Token.String ['a']] 0 =
      (Except.error "Expected colon after key", 2) ∧
    "Expected colon after key" ≠ "Unclosed object" :=
  ⟨rfl, by decide⟩

/-- C1 (amended): after consuming the opening brace of a non-empty
object, reaching the end of the token stream inside the
key/colon/value/separator loop always fails, but the error depends on
the point: "Unclosed object" when the stream ends where a key or a
comma/closing-brace separator was expected, "Expected colon after key"
when it ends where the colon was expected, and "Unexpected end of
input" when it ends where the value was expected. -/
theorem c1_object_loop_end_of_input :
    (∀ (tokens : List Token) (q : Nat) (pairs : List (List Char × JsonValue)),
      tokens.length ≤ q →
      Parser.object_loop tokens q pairs = (Except.error "Unclosed object", q)) ∧
    (∀ (tokens : List Token) (q : Nat) (pairs : List (List Char × JsonValue)) (s : List Char),
      tokens.getD q Token.Eof = Token.String s → q < tokens.length → tokens.length = q + 1 →
      Parser.object_loop tokens q pairs = (Except.error "Expected colon after key", q + 1)) ∧
    (∀ (tokens : List Token) (q : Nat) (pairs : List (List Char × JsonValue)) (s : List Char),
      tokens.getD q Token.Eof = Token.String s → tokens.getD (q + 1) Token.Eof = Token.Colon →
      q + 1 < tokens.length → tokens.length = q + 2 →
      Parser.object_loop tokens q pairs = (Except.error "Unexpected end of input", q + 2)) ∧
    (∀ (tokens : List Token) (q : Nat) (pairs : List (List Char × JsonValue)) (s : List Char)
      (v : JsonValue) (r : Nat),
      tokens.getD q Token.Eof = Token.String s → tokens.getD (q + 1) Token.Eof = Token.Colon →
      q + 1 < tokens.length → Parser.parse tokens (q + 2) = (Except.ok v, r) →
      tokens.length ≤ r →
      Parser.object_loop tokens q pairs = (Except.error "Unclosed object", r)) := by
  refine ⟨?_, ?_, ?_, ?_⟩
  · intro tokens q pairs hq
    rw [Parser.object_loop_eq, if_neg (by omega)]
  · intro tokens q pairs s hkey hlt hlen
    rw [Parser.object_loop_eq, if_pos hlt, hkey]
    dsimp only
    rw [if_neg]
    rw [Bool.and_eq_true, decide_eq_true_eq]
    rintro ⟨hh, _⟩
    omega
  · intro tokens q pairs s hkey hcolon hlt1 hlen
    rw [Parser.object_loop_eq, if_pos (by omega), hkey]
    dsimp only
    rw [if_pos (by rw [Bool.and_eq_true, decide_eq_true_eq, beq_iff_eq]; exact ⟨hlt1, hcolon⟩)]
    have hp : Parser.parse tokens (q + 2) = (Except.error "Unexpected end of input", q + 2) := by
      rw [Parser.parse_eq, if_neg (by omega)]
    rw [hp]
  · intro tokens q pairs s v r hkey hcolon hlt1 hval hr
    rw [Parser.object_loop_eq, if_pos (by omega), hkey]
    dsimp only
    rw [if_pos (by rw [Bool.and_eq_true, decide_eq_true_eq, beq_iff_eq]; exact ⟨hlt1, hcolon⟩)]
    rw [hval]
    dsimp only
    rw [if_neg (by omega)]

/-- C1 (witness): the four end-of-input points exercised on concrete
token lists. -/
theorem c1_object_loop_end_of_input_witness :
    Parser.object_loop [Token.String ['a']] 0 [] =
      (Except.error "Expected colon after key", 1) ∧
    Parser.object_loop [Token.String ['a'], Token.Colon] 0 [] =
      (Except.error "Unexpected end of input", 2) ∧
    Parser.object_loop [Token.String ['a'], Token.Colon, Token.Null] 3 [] =
      (Except.error "Unclosed object", 3) ∧
    Parser.object_loop [Token.String ['a'], Token.Colon, Token.Null] 0 [] =
      (Except.error "Unclosed object", 3) := by
  refine ⟨?_, ?_, ?_, ?_⟩
  · exact c1_object_loop_end_of_input.2.1 [Token.String ['a']] 0 [] ['a'] rfl
      (by decide) rfl
  · exact c1_object_loop_end_of_input.2.2.1 [Token.String ['a'], Token.Colon] 0 [] ['a'] rfl
      rfl (by decide) rfl
  · exact c1_object_loop_end_of_input.1 [Token.String ['a'], Token.Colon, Token.Null] 3 []
      (by decide)
  · exact c1_object_loop_end_of_input.2.2.2 [Token.String ['a'], Token.Colon, Token.Null] 0 []
      ['a'] JsonValue.Null 3 rfl rfl (by decide) rfl (by decide)

/-- C2: `next_token` is total by construction (it is a Lean function
into `Token × Nat`, with no error outcome in its type); an unrecognized
character degrades to a `Whitespace` token, as does a `t`/`f`/`n` whose
following characters do not exactly spell `true`/`false`/`null`; and the
caller's collection loop filters every `Whitespace` token out. -/
theorem c2_next_token_never_fails :
    (∀ (input : List Char) (pos : Nat),
      Lexer.skio_whitespace input pos < input.length →
      ¬lexer_recognized (input.getD (Lexer.skio_whitespace input pos) ' ') →
      Lexer.next_token input pos = (Token.Whitespace, Lexer.skio_whitespace input pos + 1)) ∧
    (∀ (input : List Char) (pos : Nat),
      Lexer.skio_whitespace input pos < input.length →
      input.getD (Lexer.skio_whitespace input pos) ' ' = 't' →
      ¬(Lexer.skio_whitespace input pos + 4 ≤ input.length ∧
        (input.drop (Lexer.skio_whitespace input pos)).take 4 = ['t', 'r', 'u', 'e']) →
      Lexer.next_token input pos = (Token.Whitespace, Lexer.skio_whitespace input pos + 1)) ∧
    (∀ (input : List Char) (pos : Nat),
      Lexer.skio_whitespace input pos < input.length →
      input.getD (Lexer.skio_whitespace input pos) ' ' = 'f' →
      ¬(Lexer.skio_whitespace input pos + 5 ≤ input.length ∧
        (input.drop (Lexer.skio_whitespace input pos)).take 5 = ['f', 'a', 'l', 's', 'e']) →
      Lexer.next_token input pos = (Token.Whitespace, Lexer.skio_whitespace input pos + 1)) ∧
    (∀ (input : List Char) (pos : Nat),
      Lexer.skio_whitespace input pos < input.length →
      input.getD (Lexer.skio_whitespace input pos) ' ' = 'n' →
      ¬(Lexer.skio_whitespace input pos + 4 ≤ input.length ∧
        (input.drop (Lexer.skio_whitespace input pos)).take 4 = ['n', 'u', 'l', 'l']) →
      Lexer.next_token input pos = (Token.Whitespace, Lexer.skio_whitespace input pos + 1)) ∧
    (∀ input : List Char, Token.Whitespace ∉ tokenize input) :=
  ⟨next_token_unrecognized, next_token_true_mismatch, next_token_false_mismatch,
    next_token_null_mismatch, fun input => tokenize_loop_no_whitespace input _ 0⟩

/-- C2 (witness): an unrecognized `@` and a truncated `tr` each lex to a
`Whitespace` token. -/
theorem c2_next_token_never_fails_witness :
    Lexer.next_token ['@'] 0 = (Token.Whitespace, 1) ∧
    Lexer.next_token ['t', 'r'] 0 = (Token.Whitespace, 1) := by
  constructor
  · exact c2_next_token_never_fails.1 ['@'] 0 (by decide)
      (by simp [lexer_recognized, Lexer.skio_whitespace, Lexer.skip_ws_count,
        rust_is_whitespace, List.getD])
  · exact c2_next_token_never_fails.2.1 ['t', 'r'] 0 (by decide)
      (by simp [Lexer.skio_whitespace, Lexer.skip_ws_count, rust_is_whitespace, List.getD])
      (by decide)

/-- C3: after the opening quote, `read_string` returns exactly the
characters up to (not including) the next `"` or the end of input, with
no escape processing (the backslash in the first concrete example is
kept, and the following `"` terminates the string), and an unterminated
string is returned as-is without error (second concrete example). -/
theorem c3_read_string_verbatim :
    (∀ (input : List Char) (pos : Nat),
      Lexer.read_string input pos =
        (Token.String ((input.drop pos).takeWhile (fun c => c != '"')),
          if pos + ((input.drop pos).takeWhile (fun c => c != '"')).length < input.length then
            pos + ((input.drop pos).takeWhile (fun c => c != '"')).length + 1
          else pos + ((input.drop pos).takeWhile (fun c => c != '"')).length)) ∧
    Lexer.read_string ['a', '\\', '"', 'x', '"'] 0 = (Token.String ['a', '\\'], 3) ∧
    Lexer.read_string ['a', 'b'] 0 = (Token.String ['a', 'b'], 2) :=
  ⟨read_string_spec, rfl, rfl⟩

/-- C4: a numeric run whose accumulated text does not convert to a
floating-point value yields `NumberLiteral 0.0` instead of an error; the
cursor still advances past the whole run. -/
theorem c4_read_number_defaults_to_zero :
    ∀ (input : List Char) (pos : Nat) (first : Char),
      parse_f64 (first :: (input.drop pos).takeWhile (fun c => c.isDigit || c == '.')) = none →
      Lexer.read_number input pos first =
        (Token.Number 0,
          pos + ((input.drop pos).takeWhile (fun c => c.isDigit || c == '.')).length) := by
  intro input pos first h
  rw [read_number_spec, h]
  rfl

/-- C4 (witness): the malformed run `1.2.3` and a lone `-` both fail to
convert and both produce the `0.0` token. -/
theorem c4_read_number_defaults_to_zero_witness :
    parse_f64 ('1' :: ("1.2.3".toList.drop 1).takeWhile (fun c => c.isDigit || c == '.')) =
      none ∧
    Lexer.read_number "1.2.3".toList 1 '1' = (Token.Number 0, 5) ∧
    Lexer.read_number "-".toList 1 '-' = (Token.Number 0, 1) := by
  refine ⟨by decide, ?_, ?_⟩
  · exact c4_read_number_defaults_to_zero "1.2.3".toList 1 '1' (by decide)
  · exact c4_read_number_defaults_to_zero "-".toList 1 '-' (by decide)

/-- C5 (counterexample): `parse` can fail with "Unexpected end of input"
even though tokens remain at the call's current position — the error
propagates from the nested value parse of `{"a":` — so "exactly when no
tokens remain" is false. -/
theorem c5_unexpected_end_counterexample :
    Parser.parse [Token.LeftBrace, Token.String ['a'], Token.Colon] 0 =
      (Except.error "Unexpected end of input", 3) ∧
    0 < ([Token.LeftBrace, Token.String ['a'], Token.Colon] : List Token).length :=
  ⟨rfl, by decide⟩

/-- C5 (amended): `parse` fails with "Unexpected end of input"
immediately whenever no tokens remain at the current position (an empty
token stream in particular), and fails with "Invalid JSON structure"
when the current token is `RightBrace`, `RightBracket`, `Colon`, `Comma`
or `Whitespace`; in addition, an "Unexpected end of input" raised by a
nested value parse propagates to a call whose own position still has
tokens. -/
theorem c5_parse_error_dispatch :
    (∀ (tokens : List Token) (pos : Nat), tokens.length ≤ pos →
      Parser.parse tokens pos = (Except.error "Unexpected end of input", pos)) ∧
    Parser.parse ([] : List Token) 0 = (Except.error "Unexpected end of input", 0) ∧
    (∀ (tokens : List Token) (pos : Nat), pos < tokens.length →
      (tokens.getD pos Token.Eof = Token.RightBrace ∨
        tokens.getD pos Token.Eof = Token.RightBracket ∨
        tokens.getD pos Token.Eof = Token.Colon ∨
        tokens.getD pos Token.Eof = Token.Comma ∨
        tokens.getD pos Token.Eof = Token.Whitespace) →
      Parser.parse tokens pos = (Except.error "Invalid JSON structure", pos)) := by
  refine ⟨?_, rfl, ?_⟩
  · intro tokens pos h
    rw [Parser.parse_eq, if_neg (by omega)]
  · intro tokens pos h hd
    rw [Parser.parse_eq, if_pos h]
    rcases hd with h1 | h1 | h1 | h1 | h1 <;> rw [h1]

/-- C5 (witness): the empty stream and a lone `:` fail as described. -/
theorem c5_parse_error_dispatch_witness :
    Parser.parse [Token.True, Token.Null] 2 = (Except.error "Unexpected end of input", 2) ∧
    Parser.parse [Token.Colon] 0 = (Except.error "Invalid JSON structure", 0) := by
  constructor
  · exact c5_parse_error_dispatch.1 [Token.True, Token.Null] 2 (by decide)
  · exact c5_parse_error_dispatch.2.2 [Token.Colon] 0 (by decide)
      (Or.inr (Or.inr (Or.inl rfl)))

/-- C6: a parsed object keeps its pairs as an ordered list in input
order with duplicates retained: the tokens of `{"a":1,"b":2}` yield
exactly `[("a", 1.0), ("b", 2.0)]`, the tokens of `{"a":1,"a":2}` keep
both `"a"` pairs unmerged, and in general a successful object loop only
ever appends to its accumulator. -/
theorem c6_object_order_duplicates :
    Parser.parse [Token.LeftBrace, Token.String ['a'], Token.Colon, Token.Number 1,
        Token.Comma, Token.String ['b'], Token.Colon, Token.Number 2, Token.RightBrace] 0 =
      (Except.ok (JsonValue.Object [(['a'], JsonValue.Number 1),
        (['b'], JsonValue.Number 2)]), 9) ∧
    Parser.parse [Token.LeftBrace, Token.String ['a'], Token.Colon, Token.Number 1,
        Token.Comma, Token.String ['a'], Token.Colon, Token.Number 2, Token.RightBrace] 0 =
      (Except.ok (JsonValue.Object [(['a'], JsonValue.Number 1),
        (['a'], JsonValue.Number 2)]), 9) ∧
    (∀ (tokens : List Token) (pos : Nat) (pairs : List (List Char × JsonValue))
      (w : JsonValue) (p' : Nat),
      Parser.object_loop tokens pos pairs = (Except.ok w, p') →
      ∃ rest, w = JsonValue.Object (pairs ++ rest)) := by
  refine ⟨rfl, rfl, ?_⟩
  intro tokens pos pairs w p' h
  have h1 := Parser.run_call tokens (PCall.object_loop pos pairs)
  rw [show Parser.call tokens (PCall.object_loop pos pairs) = (Except.ok w, p') from h] at h1
  exact Parser.run_object_loop_pairs tokens _ _ _ _ _ h1

/-- C6 (witness): the general conjunct applied to a one-pair loop state. -/
theorem c6_object_order_duplicates_witness :
    ∃ rest, JsonValue.Object [(['a'], JsonValue.Number 1)] = JsonValue.Object ([] ++ rest) :=
  c6_object_order_duplicates.2.2
    [Token.String ['a'], Token.Colon, Token.Number 1, Token.RightBrace] 0 []
    (JsonValue.Object [(['a'], JsonValue.Number 1)]) 4 rfl

/-- C7: trailing tokens after one complete value are never rejected: a
successful top-level parse of a token list gives the same value and the
same final position on that list extended by any trailing tokens. -/
theorem c7_trailing_tokens_ignored :
    ∀ (tokens extra : List Token) (pos : Nat) (v : JsonValue) (p' : Nat),
      Parser.parse tokens pos = (Except.ok v, p') →
      Parser.parse (tokens ++ extra) pos = (Except.ok v, p') :=
  Parser.parse_append

/-- C7 (witness): `null` followed by trailing garbage still parses to
`null`, consuming exactly one token. -/
theorem c7_trailing_tokens_ignored_witness :
    Parser.parse [Token.Null] 0 = (Except.ok JsonValue.Null, 1) ∧
    Parser.parse ([Token.Null] ++ [Token.RightBrace, Token.Comma]) 0 =
      (Except.ok JsonValue.Null, 1) :=
  ⟨rfl, c7_trailing_tokens_ignored [Token.Null] [Token.RightBrace, Token.Comma] 0
    JsonValue.Null 1 rfl⟩

/-- C8: lexing and parsing are bounded by the input size: the token
collection loop is insensitive to any fuel beyond `input.length + 1`
(so it stops within that many `next_token` calls), it produces at most
one token per input character, and the parser's step interpreter
completes from every call with the budget `Parser.fuel tokens`, which is
linear in the token count. -/
theorem c8_termination_bounded :
    (∀ (input : List Char) (fuel : Nat), input.length + 1 ≤ fuel →
      tokenize_loop input fuel 0 = tokenize input) ∧
    (∀ input : List Char, (tokenize input).length ≤ input.length) ∧
    (∀ (tokens : List Token) (c : PCall), (Parser.run tokens (Parser.fuel tokens) c).isSome) := by
  refine ⟨?_, ?_, ?_⟩
  · intro input fuel h
    exact tokenize_loop_stable input fuel (input.length + 1) 0 (by omega) (by omega)
  · intro input
    have h2 : (tokenize input).length ≤ input.length - 0 := tokenize_loop_length input _ 0
    omega
  · intro tokens c
    exact Parser.run_fuel_isSome tokens c

/-- C8 (witness): the fuel bound applied to a concrete input. -/
theorem c8_termination_bounded_witness :
    tokenize_loop "x".toList 2 0 = tokenize "x".toList :=
  c8_termination_bounded.1 "x".toList 2 (by decide)

/-- C9: both cursors are monotone: a `next_token` call never moves the
lexer's scan position left, and `parse` / `parse_object` / `parse_array`
never move the parser's read position left, on success or error alike. -/
theorem c9_cursors_monotone :
    (∀ (input : List Char) (pos : Nat), pos ≤ (Lexer.next_token input pos).2) ∧
    (∀ (tokens : List Token) (pos : Nat), pos ≤ (Parser.parse tokens pos).2) ∧
    (∀ (tokens : List Token) (pos : Nat), pos ≤ (Parser.parse_object tokens pos).2) ∧
    (∀ (tokens : List Token) (pos : Nat), pos ≤ (Parser.parse_array tokens pos).2) := by
  refine ⟨next_token_ge, ?_, ?_, ?_⟩
  · intro tokens pos
    exact (Parser.call_mono tokens (PCall.parse pos)).1
  · intro tokens pos
    exact (Parser.call_mono tokens (PCall.parse_object pos)).1
  · intro tokens pos
    exact (Parser.call_mono tokens (PCall.parse_array pos)).1

/-- C10: strict progress on success: whenever `parse`, `parse_object` or
`parse_array` returns `Ok`, the new read position is strictly greater
than the starting one, so recursive sub-parses always work on strictly
shorter remaining suffixes. -/
theorem c10_strict_progress_on_success :
    (∀ (tokens : List Token) (pos : Nat) (v : JsonValue) (p' : Nat),
      Parser.parse tokens pos = (Except.ok v, p') → pos < p') ∧
    (∀ (tokens : List Token) (pos : Nat) (v : JsonValue) (p' : Nat),
      Parser.parse_object tokens pos = (Except.ok v, p') → pos < p') ∧
    (∀ (tokens : List Token) (pos : Nat) (v : JsonValue) (p' : Nat),
      Parser.parse_array tokens pos = (Except.ok v, p') → pos < p') := by
  refine ⟨?_, ?_, ?_⟩
  · intro tokens pos v p' h
    have hm : pos < (Parser.parse tokens pos).2 :=
      (Parser.call_mono tokens (PCall.parse pos)).2 v
        (by show (Parser.parse tokens pos).1 = Except.ok v; rw [h])
    rw [h] at hm
    exact hm
  · intro tokens pos v p' h
    have hm : pos < (Parser.parse_object tokens pos).2 :=
      (Parser.call_mono tokens (PCall.parse_object pos)).2 v
        (by show (Parser.parse_object tokens pos).1 = Except.ok v; rw [h])
    rw [h] at hm
    exact hm
  · intro tokens pos v p' h
    have hm : pos < (Parser.parse_array tokens pos).2 :=
      (Parser.call_mono tokens (PCall.parse_array pos)).2 v
        (by show (Parser.parse_array tokens pos).1 = Except.ok v; rw [h])
    rw [h] at hm
    exact hm

/-- C10 (witness): parsing `null` consumes exactly one token, moving the
position from 0 to 1. -/
theorem c10_strict_progress_witness :
    Parser.parse [Token.Null] 0 = (Except.ok JsonValue.Null, 1) ∧ 0 < 1 :=
  ⟨rfl, c10_strict_progress_on_success.1 [Token.Null] 0 JsonValue.Null 1 rfl⟩
